import Mathlib

/-!
Shallow embedding of the GradeBook Analyzer (src/Lab 2/labassignment2.py)
and the Library Inventory Manager (src/Lab 3/lab3.py).

Python floats are modelled as rationals (ℚ); a Python dict is modelled as an
association list in insertion order, where assignment to an existing key
replaces the value in place and assignment to a fresh key appends.
The numeric grammar of Python's float() is abstracted as a parameter
(parse : String → Option ℚ); a concrete small parser parseNum is provided
for evaluating theorems at concrete inputs.
-/

namespace GradeBook

/-- A loaded batch of (student name, marks) records, in dict insertion order. -/
abbrev Batch := List (String × ℚ)

/-- Python dict assignment d[k] = v: replace the value in place when the key
exists, otherwise append the pair at the end. -/
def dictInsert (d : Batch) (k : String) (v : ℚ) : Batch :=
  if d.any (fun p => p.1 == k) then
    d.map (fun p => if p.1 == k then (p.1, v) else p)
  else
    d ++ [(k, v)]

/-- assign_grade: threshold bands evaluated highest-to-lowest. -/
def assign_grade (score : ℚ) : String :=
  if score ≥ 90 then "A"
  else if score ≥ 80 then "B"
  else if score ≥ 70 then "C"
  else if score ≥ 60 then "D"
  else "F"

/-- calculate_average: sum of the values divided by the number of records. -/
def calculate_average (marks : Batch) : ℚ :=
  (marks.map Prod.snd).sum / marks.length

/-- statistics.median on an already-sorted list: the middle element for an
odd count, the midpoint of the two middle elements for an even count; none
on an empty list (statistics.median raises there). -/
def medianOfSorted (s : List ℚ) : Option ℚ :=
  if s.length % 2 = 1 then s[s.length / 2]?
  else
    match s[s.length / 2 - 1]?, s[s.length / 2]? with
    | some a, some b => some ((a + b) / 2)
    | _, _ => none

/-- calculate_median: statistics.median — sort the values, then index as
medianOfSorted does. -/
def calculate_median (marks : Batch) : Option ℚ :=
  medianOfSorted (List.insertionSort (fun a b : ℚ => a ≤ b) (marks.map Prod.snd))

/-- The loop of Python max(iterable, key=f): keep the current best unless the
next element is strictly greater, so the first maximal element wins. -/
def maxByLoop (best : String × ℚ) : Batch → String × ℚ
  | [] => best
  | x :: xs => maxByLoop (if best.2 < x.2 then x else best) xs

/-- find_max_score: (name, marks[name]) for name = max(marks, key=marks.get);
none on an empty batch (Python max raises there). -/
def find_max_score (marks : Batch) : Option (String × ℚ) :=
  match marks with
  | [] => none
  | x :: xs => some (maxByLoop x xs)

/-- The loop of Python min(iterable, key=f): keep the current best unless the
next element is strictly smaller, so the first minimal element wins. -/
def minByLoop (best : String × ℚ) : Batch → String × ℚ
  | [] => best
  | x :: xs => minByLoop (if x.2 < best.2 then x else best) xs

/-- find_min_score: (name, marks[name]) for name = min(marks, key=marks.get);
none on an empty batch (Python min raises there). -/
def find_min_score (marks : Batch) : Option (String × ℚ) :=
  match marks with
  | [] => none
  | x :: xs => some (minByLoop x xs)

/-- grade_distribution: start from {A:0,B:0,C:0,D:0,F:0} and do
dist[grade] += 1 per record; a grade outside the five keys raises KeyError,
modelled as none. -/
def bump (d : List (String × ℕ)) (g : String) : Option (List (String × ℕ)) :=
  if d.any (fun q => q.1 == g) then
    some (d.map (fun q => if q.1 == g then (q.1, q.2 + 1) else q))
  else
    none

def grade_distribution (grades : List (String × String)) : Option (List (String × ℕ)) :=
  grades.foldl (fun acc p => acc.bind (fun d => bump d p.2))
    (some [("A", 0), ("B", 0), ("C", 0), ("D", 0), ("F", 0)])

/-- pass_fail_lists: the two list comprehensions over marks.items(). -/
def pass_fail_lists (marks : Batch) : List String × List String :=
  ((marks.filter (fun p => 40 ≤ p.2)).map Prod.fst,
   (marks.filter (fun p => p.2 < 40)).map Prod.fst)

/-- Python str.strip(): remove whitespace from both ends. -/
def strip (s : String) : String :=
  ⟨((s.data.dropWhile Char.isWhitespace).reverse.dropWhile Char.isWhitespace).reverse⟩

/-- One iteration of the load_csv row loop: a row without exactly two fields
is skipped; a row whose second field does not parse is skipped; otherwise
marks[row[0].strip()] = float(row[1].strip()). -/
def processRow (parse : String → Option ℚ) (marks : Batch) (row : List String) : Batch :=
  match row with
  | [name, scoreStr] =>
    match parse (strip scoreStr) with
    | some v => dictInsert marks (strip name) v
    | none => marks
  | _ => marks

/-- load_csv: skip the first row (header), then fold the row loop over the
remaining rows starting from the empty dict. -/
def load_csv (parse : String → Option ℚ) (rows : List (List String)) : Batch :=
  (rows.drop 1).foldl (processRow parse) []

/-- The rows written by export_to_csv: a header row, then one three-field row
[name, str(score), grades[name]] per record. -/
def export_to_csv_rows (marks : Batch) (grades : String → String)
    (render : ℚ → String) : List (List String) :=
  ["Name", "Marks", "Grade"] :: marks.map (fun p => [p.1, render p.2, grades p.1])

/-- sample_data: the fixed test batch. -/
def sample_data : Batch :=
  [("Alice", 78), ("Bob", 92), ("Charlie", 65), ("Diana", 55), ("Ethan", 35)]

/-- The grades dict computed by analyze_and_report. -/
def grades_of (marks : Batch) : List (String × String) :=
  marks.map (fun p => (p.1, assign_grade p.2))

/-- A well-formed data row reduced to its (key, value) contribution: some
(stripped name, parsed score) when the row has exactly two fields and the
second parses, none otherwise. -/
def rowPair (parse : String → Option ℚ) (row : List String) : Option (String × ℚ) :=
  match row with
  | [name, scoreStr] => (parse (strip scoreStr)).map (fun v => (strip name, v))
  | _ => none

/-- A concrete number parser for evaluating theorems at concrete inputs:
unsigned decimal numerals, optionally with a fractional part. -/
def parseNat? (cs : List Char) : Option ℕ :=
  if cs.isEmpty ∨ ¬ cs.all Char.isDigit then none
  else some (cs.foldl (fun n c => n * 10 + (c.toNat - 48)) 0)

def parseNum (s : String) : Option ℚ :=
  match s.toList.splitOn '.' with
  | [w] => (parseNat? w).map (fun n => (n : ℚ))
  | [w, f] =>
    match parseNat? w, parseNat? f with
    | some n, some m => some ((n : ℚ) + (m : ℚ) / (10 ^ f.length : ℚ))
    | _, _ => none
  | _ => none

end GradeBook

namespace Library

/-- A book record: {title, author, isbn, status}. -/
structure Book where
  title : String
  author : String
  isbn : String
  status : String
deriving DecidableEq

/-- Book.issue: succeed (and move to "issued") only from "available";
the pair is (returned bool, the book after the call). -/
def Book.issue (b : Book) : Bool × Book :=
  if b.status = "available" then (true, { b with status := "issued" })
  else (false, b)

/-- Book.return_book: succeed (and move to "available") only from "issued". -/
def Book.return_book (b : Book) : Bool × Book :=
  if b.status = "issued" then (true, { b with status := "available" })
  else (false, b)

/-- search_by_isbn: scan the inventory in order and return the first book
whose isbn equals the query exactly; None when no book matches. -/
def search_by_isbn (books : List Book) (isbn : String) : Option Book :=
  match books with
  | [] => none
  | b :: rest => if b.isbn = isbn then some b else search_by_isbn rest isbn

/-- Mutating the object returned by search_by_isbn updates the first book
with the given isbn in place. -/
def updateFirstIsbn (books : List Book) (isbn : String) (nb : Book) : List Book :=
  match books with
  | [] => []
  | b :: rest =>
    if b.isbn = isbn then nb :: rest else b :: updateFirstIsbn rest isbn nb

/-- The issue branch of main: look the book up by ISBN, call issue on it, and
call save_data only when issue returned True. The result is the inventory
after the step and whether save_data persisted it. -/
def mainIssueStep (books : List Book) (isbn : String) : List Book × Bool :=
  match search_by_isbn books isbn with
  | none => (books, false)
  | some b =>
    match b.issue with
    | (true, nb) => (updateFirstIsbn books isbn nb, true)
    | (false, _) => (books, false)

end Library

namespace GradeBook

/-- Claim C1: the grade classifier returns exactly one label per score,
via fixed exhaustive non-overlapping bands evaluated highest-to-lowest:
"A" iff score ≥ 90, "B" iff 80 ≤ score < 90, "C" iff 70 ≤ score < 80,
"D" iff 60 ≤ score < 70, "F" iff score < 60; the result is always one of
the five labels. -/
theorem assign_grade_bands (s : ℚ) :
    (assign_grade s = "A" ↔ 90 ≤ s) ∧
    (assign_grade s = "B" ↔ 80 ≤ s ∧ s < 90) ∧
    (assign_grade s = "C" ↔ 70 ≤ s ∧ s < 80) ∧
    (assign_grade s = "D" ↔ 60 ≤ s ∧ s < 70) ∧
    (assign_grade s = "F" ↔ s < 60) ∧
    assign_grade s ∈ ["A", "B", "C", "D", "F"] := by
  unfold assign_grade
  split_ifs with h1 h2 h3 h4 <;>
    refine ⟨?_, ?_, ?_, ?_, ?_, ?_⟩ <;>
    simp_all <;> intros <;> linarith

/-- Claim C2, counterexample: on the sample batch the grades dict is not the
one the claim states, because Diana's 55 falls in the "else" band:
assign_grade 55 = "F", not "D". -/
theorem sample_scenario_cex :
    grades_of sample_data
      ≠ [("Alice", "C"), ("Bob", "A"), ("Charlie", "D"), ("Diana", "D"), ("Ethan", "F")] ∧
    assign_grade 55 = "F" := by
  constructor
  · decide
  · norm_num [assign_grade]

/-- Claim C2, amended: on the sample batch {Alice:78, Bob:92, Charlie:65,
Diana:55, Ethan:35} the pipeline computes mean 65, median 65, maximum
("Bob", 92), minimum ("Ethan", 35), grades {Alice:C, Bob:A, Charlie:D,
Diana:F, Ethan:F} (Diana's 55 is below the 60 band, so "F"), pass list
[Alice, Bob, Charlie, Diana] and fail list [Ethan] at pass threshold 40. -/
theorem sample_scenario :
    calculate_average sample_data = 65 ∧
    calculate_median sample_data = some 65 ∧
    find_max_score sample_data = some ("Bob", 92) ∧
    find_min_score sample_data = some ("Ethan", 35) ∧
    grades_of sample_data
      = [("Alice", "C"), ("Bob", "A"), ("Charlie", "D"), ("Diana", "F"), ("Ethan", "F")] ∧
    pass_fail_lists sample_data = (["Alice", "Bob", "Charlie", "Diana"], ["Ethan"]) := by
  refine ⟨?_, ?_, ?_, ?_, ?_, ?_⟩
  · norm_num [calculate_average, sample_data]
  · norm_num [calculate_median, medianOfSorted, sample_data, List.insertionSort,
      List.orderedInsert]
  · norm_num [find_max_score, maxByLoop, sample_data]
  · norm_num [find_min_score, minByLoop, sample_data]
  · decide
  · norm_num [pass_fail_lists, sample_data, List.filter]

/-- Exported data rows have three fields, so the two-field row loop of
load_csv drops every one of them, whatever the accumulator. -/
lemma foldl_processRow_export (parse : String → Option ℚ) (grades : String → String)
    (render : ℚ → String) (ps : Batch) (acc : Batch) :
    (ps.map (fun p => [p.1, render p.2, grades p.1])).foldl (processRow parse) acc = acc := by
  induction ps generalizing acc with
  | nil => rfl
  | cons p rest ih => exact ih acc

/-- Claim C5, counterexample: exporting the sample batch and re-loading the
file does not restore its (key, value) pairs — the loader returns the empty
batch instead, while the sample batch is non-empty. -/
theorem export_reload_cex :
    load_csv parseNum
        (export_to_csv_rows sample_data
          (fun n => ((grades_of sample_data).lookup n).getD "")
          (fun q => toString q))
      = [] ∧ sample_data ≠ [] := by
  refine ⟨?_, by decide⟩
  unfold load_csv export_to_csv_rows
  exact foldl_processRow_export parseNum
    (fun n => ((grades_of sample_data).lookup n).getD "") (fun q => toString q)
    sample_data []

/-- Claim C5, amended: re-loading an exported file never restores the batch:
every exported data row has three fields (name, score, grade) while the
loader keeps only rows with exactly two fields, so the re-loaded batch is
empty for every batch, grades mapping, number rendering and number parser. -/
theorem export_reload_empty (parse : String → Option ℚ) (marks : Batch)
    (grades : String → String) (render : ℚ → String) :
    load_csv parse (export_to_csv_rows marks grades render) = [] := by
  unfold load_csv export_to_csv_rows
  exact foldl_processRow_export parse grades render marks []

end GradeBook

namespace Library

/-- Claim C10: search_by_isbn returns the first book in insertion order whose
isbn equals the query exactly (all books before it in the inventory have a
different isbn), and None exactly when no book matches. -/
theorem search_by_isbn_first_match (books : List Book) (q : String) :
    (search_by_isbn books q = none ↔ ∀ b ∈ books, b.isbn ≠ q) ∧
    (∀ b, search_by_isbn books q = some b →
      b.isbn = q ∧ ∃ pre post, books = pre ++ b :: post ∧ ∀ x ∈ pre, x.isbn ≠ q) := by
  induction books with
  | nil => simp [search_by_isbn]
  | cons a rest ih =>
    by_cases ha : a.isbn = q
    · refine ⟨by simp [search_by_isbn, ha], ?_⟩
      intro b hb
      simp only [search_by_isbn, if_pos ha, Option.some.injEq] at hb
      subst hb
      exact ⟨ha, [], rest, rfl, by simp⟩
    · have hstep : search_by_isbn (a :: rest) q = search_by_isbn rest q := by
        simp [search_by_isbn, ha]
      refine ⟨?_, ?_⟩
      · rw [hstep, ih.1]
        constructor
        · intro h b hb
          rcases List.mem_cons.mp hb with rfl | hb'
          · exact ha
          · exact h b hb'
        · intro h b hb
          exact h b (List.mem_cons_of_mem a hb)
      · intro b hb
        rw [hstep] at hb
        obtain ⟨hbq, pre, post, heq, hpre⟩ := ih.2 b hb
        refine ⟨hbq, a :: pre, post, by rw [List.cons_append, heq], ?_⟩
        intro x hx
        rcases List.mem_cons.mp hx with rfl | hx'
        · exact ha
        · exact hpre x hx'

/-- Claim C6: issuing a book whose status is already "issued" returns False
and leaves the book (every field) unchanged, and the main issue branch does
not modify or persist the inventory on this failure path. -/
theorem issue_already_issued (b : Book) (books : List Book) (q : String)
    (h : b.status = "issued") :
    b.issue = (false, b) ∧
    (search_by_isbn books q = some b → mainIssueStep books q = (books, false)) := by
  have hb : b.issue = (false, b) := by
    simp [Book.issue, h]
  exact ⟨hb, fun hs => by simp [mainIssueStep, hs, hb]⟩

/-- Witness for claim C6 at a concrete one-book inventory. -/
theorem issue_already_issued_witness :
    (Book.mk "Title" "Author" "111" "issued").issue
      = (false, Book.mk "Title" "Author" "111" "issued") ∧
    mainIssueStep [Book.mk "Title" "Author" "111" "issued"] "111"
      = ([Book.mk "Title" "Author" "111" "issued"], false) := by
  have h := issue_already_issued (Book.mk "Title" "Author" "111" "issued")
    [Book.mk "Title" "Author" "111" "issued"] "111" rfl
  exact ⟨h.1, h.2 (by decide)⟩

end Library

namespace GradeBook

/-- The names kept by the pass filter and by the fail filter together count
every occurrence of a name in the key list. -/
lemma count_pass_fail (marks : Batch) (n : String) :
    ((marks.filter (fun p => 40 ≤ p.2)).map Prod.fst).count n
      + ((marks.filter (fun p => p.2 < 40)).map Prod.fst).count n
      = (marks.map Prod.fst).count n := by
  induction marks with
  | nil => simp
  | cons a l ih =>
    by_cases h : (40 : ℚ) ≤ a.2
    · simp only [List.filter_cons, decide_eq_true_eq]
      rw [if_pos h, if_neg (not_lt.mpr h)]
      simp only [List.map_cons, List.count_cons]
      split_ifs <;> omega
    · simp only [List.filter_cons, decide_eq_true_eq]
      rw [if_neg h, if_pos (not_le.mp h)]
      simp only [List.map_cons, List.count_cons]
      split_ifs <;> omega

/-- In a batch with pairwise-distinct keys, a key determines its value. -/
lemma snd_eq_of_nodup_keys (l : Batch) (hnd : (l.map Prod.fst).Nodup)
    {n : String} {m m' : ℚ} (h1 : (n, m) ∈ l) (h2 : (n, m') ∈ l) : m = m' := by
  induction l with
  | nil => cases h1
  | cons a t ih =>
    simp only [List.map_cons, List.nodup_cons] at hnd
    rcases List.mem_cons.mp h1 with ha1 | h1' <;> rcases List.mem_cons.mp h2 with ha2 | h2'
    · exact ((Prod.mk.injEq _ _ _ _).mp (ha1.trans ha2.symm)).2
    · exfalso
      have hfst : a.1 = n := by rw [← ha1]
      apply hnd.1
      rw [hfst]
      exact List.mem_map.mpr ⟨(n, m'), h2', rfl⟩
    · exfalso
      have hfst : a.1 = n := by rw [← ha2]
      apply hnd.1
      rw [hfst]
      exact List.mem_map.mpr ⟨(n, m), h1', rfl⟩
    · exact ih hnd.2 h1' h2'

/-- A name is in the pass list exactly when it carries a mark ≥ 40. -/
lemma mem_pass_iff (marks : Batch) (n : String) :
    n ∈ (pass_fail_lists marks).1 ↔ ∃ m, (n, m) ∈ marks ∧ 40 ≤ m := by
  simp only [pass_fail_lists, List.mem_map, List.mem_filter, decide_eq_true_eq]
  constructor
  · rintro ⟨⟨n', m⟩, ⟨hmem, hcond⟩, rfl⟩
    exact ⟨m, hmem, hcond⟩
  · rintro ⟨m, hmem, hge⟩
    exact ⟨(n, m), ⟨hmem, hge⟩, rfl⟩

/-- A name is in the fail list exactly when it carries a mark < 40. -/
lemma mem_fail_iff (marks : Batch) (n : String) :
    n ∈ (pass_fail_lists marks).2 ↔ ∃ m, (n, m) ∈ marks ∧ m < 40 := by
  simp only [pass_fail_lists, List.mem_map, List.mem_filter, decide_eq_true_eq]
  constructor
  · rintro ⟨⟨n', m⟩, ⟨hmem, hcond⟩, rfl⟩
    exact ⟨m, hmem, hcond⟩
  · rintro ⟨m, hmem, hlt⟩
    exact ⟨(n, m), ⟨hmem, hlt⟩, rfl⟩

/-- Claim C8: pass_fail_lists returns two ordered lists preserving batch
order (each is a sublist of the key list), the pass list holds exactly the
names with marks ≥ 40, the fail list exactly the names with marks < 40,
the two lists account for every key occurrence, and over distinct keys each
key lands in exactly one of the two lists. -/
theorem pass_fail_partition (marks : Batch) :
    (pass_fail_lists marks).1.Sublist (marks.map Prod.fst) ∧
    (pass_fail_lists marks).2.Sublist (marks.map Prod.fst) ∧
    (∀ n, n ∈ (pass_fail_lists marks).1 ↔ ∃ m, (n, m) ∈ marks ∧ 40 ≤ m) ∧
    (∀ n, n ∈ (pass_fail_lists marks).2 ↔ ∃ m, (n, m) ∈ marks ∧ m < 40) ∧
    (∀ n, (marks.map Prod.fst).count n
        = (pass_fail_lists marks).1.count n + (pass_fail_lists marks).2.count n) ∧
    ((marks.map Prod.fst).Nodup → ∀ n ∈ marks.map Prod.fst,
      (n ∈ (pass_fail_lists marks).1 ∧ n ∉ (pass_fail_lists marks).2) ∨
      (n ∈ (pass_fail_lists marks).2 ∧ n ∉ (pass_fail_lists marks).1)) := by
  refine ⟨?_, ?_, mem_pass_iff marks, mem_fail_iff marks, ?_, ?_⟩
  · exact List.Sublist.map Prod.fst (List.filter_sublist marks)
  · exact List.Sublist.map Prod.fst (List.filter_sublist marks)
  · intro n
    exact (count_pass_fail marks n).symm
  · intro hnd n hn
    rcases List.mem_map.mp hn with ⟨p, hp, rfl⟩
    by_cases h : (40 : ℚ) ≤ p.2
    · left
      refine ⟨(mem_pass_iff marks p.1).mpr ⟨p.2, by simpa using hp, h⟩, ?_⟩
      intro hcon
      rcases (mem_fail_iff marks p.1).mp hcon with ⟨m, hm, hmlt⟩
      have := snd_eq_of_nodup_keys marks hnd hm (by simpa using hp)
      rw [this] at hmlt
      exact absurd h (not_le.mpr hmlt)
    · right
      refine ⟨(mem_fail_iff marks p.1).mpr ⟨p.2, by simpa using hp, not_le.mp h⟩, ?_⟩
      intro hcon
      rcases (mem_pass_iff marks p.1).mp hcon with ⟨m, hm, hmge⟩
      have := snd_eq_of_nodup_keys marks hnd hm (by simpa using hp)
      rw [this] at hmge
      exact absurd hmge h

end GradeBook

namespace GradeBook

/-- The row loop only acts through each row's (key, value) contribution:
folding it equals folding dict insertion over the well-formed rows. -/
lemma foldl_processRow_filterMap (parse : String → Option ℚ)
    (rows : List (List String)) (acc : Batch) :
    rows.foldl (processRow parse) acc
      = (rows.filterMap (rowPair parse)).foldl (fun m p => dictInsert m p.1 p.2) acc := by
  induction rows generalizing acc with
  | nil => rfl
  | cons row rest ih =>
    rcases row with _ | ⟨a, _ | ⟨b, _ | ⟨c, r⟩⟩⟩
    · simpa [processRow, rowPair] using ih acc
    · simpa [processRow, rowPair] using ih acc
    · rcases hp : parse (strip b) with _ | v
      · simpa [processRow, rowPair, hp] using ih acc
      · simpa [processRow, rowPair, hp] using ih (dictInsert acc (strip a) v)
    · simpa [processRow, rowPair] using ih acc

/-- Folding dict insertion over pairs with fresh, pairwise-distinct keys is
plain appending. -/
lemma foldl_dictInsert_append (ps : List (String × ℚ)) (acc : Batch)
    (h : (acc.map Prod.fst ++ ps.map Prod.fst).Nodup) :
    ps.foldl (fun m p => dictInsert m p.1 p.2) acc = acc ++ ps := by
  induction ps generalizing acc with
  | nil => simp
  | cons p rest ih =>
    have h' := h
    rw [List.map_cons, List.nodup_append] at h'
    have hfresh : p.1 ∉ acc.map Prod.fst := fun hmem =>
      h'.2.2 hmem (List.mem_cons_self p.1 (rest.map Prod.fst))
    have hc : ¬ acc.any (fun q => q.1 == p.1) = true := by
      intro hany
      rcases List.any_eq_true.mp hany with ⟨q, hq, hqk⟩
      exact hfresh (List.mem_map.mpr ⟨q, hq, by simpa using hqk⟩)
    have hini : dictInsert acc p.1 p.2 = acc ++ [(p.1, p.2)] := by
      rw [dictInsert, if_neg hc]
    rw [List.foldl_cons, hini, ih (acc ++ [(p.1, p.2)]) (by simpa using h)]
    simp

/-- Claim C4: the loader keeps exactly the well-formed data rows — those
with exactly two fields whose second field parses — and skips the rest:
when the well-formed rows carry pairwise-distinct names, the returned batch
is precisely their list of (stripped name, parsed score) pairs, for every
parser. -/
theorem load_csv_keeps_wellformed (parse : String → Option ℚ)
    (rows : List (List String))
    (hnd : (((rows.drop 1).filterMap (rowPair parse)).map Prod.fst).Nodup) :
    load_csv parse rows = (rows.drop 1).filterMap (rowPair parse) := by
  unfold load_csv
  rw [foldl_processRow_filterMap]
  simpa using foldl_dictInsert_append ((rows.drop 1).filterMap (rowPair parse)) []
    (by simpa using hnd)

/-- Witness for claim C4: a two-column CSV with one malformed row yields the
batch of the two well-formed rows, skipping exactly the malformed one. -/
theorem load_csv_keeps_wellformed_witness :
    load_csv parseNum [["Name", "Marks"], ["Alice", "78"], ["badrow"], ["Bob", "92"]]
      = [("Alice", 78), ("Bob", 92)] := by
  rw [load_csv_keeps_wellformed parseNum
    [["Name", "Marks"], ["Alice", "78"], ["badrow"], ["Bob", "92"]] (by decide)]
  simp +decide [rowPair, parseNum, parseNat?, strip, List.splitOn]

end GradeBook

namespace GradeBook

/-- The number of records bearing a given grade. -/
def gradeCount (grades : List (String × String)) (g : String) : ℕ :=
  (grades.map Prod.snd).count g

/-- Folding the distribution loop from arbitrary starting counters adds the
per-letter record counts, as long as every grade is one of the five keys. -/
lemma grade_distribution_fold (grades : List (String × String))
    (h : ∀ p ∈ grades, p.2 = "A" ∨ p.2 = "B" ∨ p.2 = "C" ∨ p.2 = "D" ∨ p.2 = "F") :
    ∀ na nb nc nd nf : ℕ,
      grades.foldl (fun acc p => acc.bind (fun d => bump d p.2))
          (some [("A", na), ("B", nb), ("C", nc), ("D", nd), ("F", nf)])
        = some [("A", na + gradeCount grades "A"), ("B", nb + gradeCount grades "B"),
                ("C", nc + gradeCount grades "C"), ("D", nd + gradeCount grades "D"),
                ("F", nf + gradeCount grades "F")] := by
  induction grades with
  | nil =>
    intro na nb nc nd nf
    simp [gradeCount]
  | cons p rest ih =>
    intro na nb nc nd nf
    have hstep := ih (fun q hq => h q (List.mem_cons_of_mem p hq))
    rcases h p (List.mem_cons_self p rest) with hg | hg | hg | hg | hg
    · have hb : (some [("A", na), ("B", nb), ("C", nc), ("D", nd), ("F", nf)]).bind
          (fun d => bump d p.2)
          = some [("A", na + 1), ("B", nb), ("C", nc), ("D", nd), ("F", nf)] := by
        rw [hg]
        rfl
      rw [List.foldl_cons, hb, hstep (na + 1) nb nc nd nf]
      simp [gradeCount, hg, List.count_cons]
      omega
    · have hb : (some [("A", na), ("B", nb), ("C", nc), ("D", nd), ("F", nf)]).bind
          (fun d => bump d p.2)
          = some [("A", na), ("B", nb + 1), ("C", nc), ("D", nd), ("F", nf)] := by
        rw [hg]
        rfl
      rw [List.foldl_cons, hb, hstep na (nb + 1) nc nd nf]
      simp [gradeCount, hg, List.count_cons]
      omega
    · have hb : (some [("A", na), ("B", nb), ("C", nc), ("D", nd), ("F", nf)]).bind
          (fun d => bump d p.2)
          = some [("A", na), ("B", nb), ("C", nc + 1), ("D", nd), ("F", nf)] := by
        rw [hg]
        rfl
      rw [List.foldl_cons, hb, hstep na nb (nc + 1) nd nf]
      simp [gradeCount, hg, List.count_cons]
      omega
    · have hb : (some [("A", na), ("B", nb), ("C", nc), ("D", nd), ("F", nf)]).bind
          (fun d => bump d p.2)
          = some [("A", na), ("B", nb), ("C", nc), ("D", nd + 1), ("F", nf)] := by
        rw [hg]
        rfl
      rw [List.foldl_cons, hb, hstep na nb nc (nd + 1) nf]
      simp [gradeCount, hg, List.count_cons]
      omega
    · have hb : (some [("A", na), ("B", nb), ("C", nc), ("D", nd), ("F", nf)]).bind
          (fun d => bump d p.2)
          = some [("A", na), ("B", nb), ("C", nc), ("D", nd), ("F", nf + 1)] := by
        rw [hg]
        rfl
      rw [List.foldl_cons, hb, hstep na nb nc nd (nf + 1)]
      simp [gradeCount, hg, List.count_cons]
      omega

/-- Over grades drawn from the five letters, the five per-letter counts sum
to the number of records. -/
lemma gradeCount_sum (grades : List (String × String))
    (h : ∀ p ∈ grades, p.2 = "A" ∨ p.2 = "B" ∨ p.2 = "C" ∨ p.2 = "D" ∨ p.2 = "F") :
    gradeCount grades "A" + gradeCount grades "B" + gradeCount grades "C" +
      gradeCount grades "D" + gradeCount grades "F" = grades.length := by
  induction grades with
  | nil => simp [gradeCount]
  | cons p rest ih =>
    have hsum := ih (fun q hq => h q (List.mem_cons_of_mem p hq))
    rcases h p (List.mem_cons_self p rest) with hg | hg | hg | hg | hg <;>
      simp [gradeCount, hg, List.count_cons] at hsum ⊢ <;> omega

/-- Claim C9: for a grades mapping whose values all lie in {A,B,C,D,F}, the
grade distribution assigns to each of the five categories exactly the number
of records bearing that grade, and the five counts sum to the number of
records. -/
theorem grade_distribution_counts (grades : List (String × String))
    (h : ∀ p ∈ grades, p.2 = "A" ∨ p.2 = "B" ∨ p.2 = "C" ∨ p.2 = "D" ∨ p.2 = "F") :
    grade_distribution grades
      = some [("A", gradeCount grades "A"), ("B", gradeCount grades "B"),
              ("C", gradeCount grades "C"), ("D", gradeCount grades "D"),
              ("F", gradeCount grades "F")] ∧
    gradeCount grades "A" + gradeCount grades "B" + gradeCount grades "C" +
      gradeCount grades "D" + gradeCount grades "F" = grades.length := by
  refine ⟨?_, gradeCount_sum grades h⟩
  have hfold := grade_distribution_fold grades h 0 0 0 0 0
  simpa [grade_distribution] using hfold

/-- Witness for claim C9 at the grades of the sample batch. -/
theorem grade_distribution_counts_witness :
    grade_distribution (grades_of sample_data)
      = some [("A", gradeCount (grades_of sample_data) "A"),
              ("B", gradeCount (grades_of sample_data) "B"),
              ("C", gradeCount (grades_of sample_data) "C"),
              ("D", gradeCount (grades_of sample_data) "D"),
              ("F", gradeCount (grades_of sample_data) "F")] ∧
    gradeCount (grades_of sample_data) "A" + gradeCount (grades_of sample_data) "B" +
      gradeCount (grades_of sample_data) "C" + gradeCount (grades_of sample_data) "D" +
      gradeCount (grades_of sample_data) "F" = (grades_of sample_data).length :=
  grade_distribution_counts (grades_of sample_data) (by decide)

end GradeBook

namespace GradeBook

/-- The max loop returns one of the elements it scanned. -/
lemma maxByLoop_mem (xs : Batch) (x : String × ℚ) : maxByLoop x xs ∈ x :: xs := by
  induction xs generalizing x with
  | nil => simp [maxByLoop]
  | cons y ys ih =>
    rw [maxByLoop]
    rcases List.mem_cons.mp (ih (if x.2 < y.2 then y else x)) with h | h
    · rw [h]
      split_ifs <;> simp
    · simp [List.mem_cons_of_mem, h]

/-- The max loop's result dominates every element it scanned. -/
lemma maxByLoop_le (xs : Batch) (x : String × ℚ) :
    ∀ r ∈ x :: xs, r.2 ≤ (maxByLoop x xs).2 := by
  induction xs generalizing x with
  | nil =>
    intro r hr
    rw [List.mem_singleton] at hr
    simp [maxByLoop, hr]
  | cons y ys ih =>
    intro r hr
    rw [maxByLoop]
    have hz : x.2 ≤ (if x.2 < y.2 then y else x).2 ∧ y.2 ≤ (if x.2 < y.2 then y else x).2 := by
      split_ifs with hxy
      · exact ⟨le_of_lt hxy, le_refl _⟩
      · exact ⟨le_refl _, not_lt.mp hxy⟩
    have hzmax : (if x.2 < y.2 then y else x).2
        ≤ (maxByLoop (if x.2 < y.2 then y else x) ys).2 :=
      ih _ _ (List.mem_cons_self _ _)
    rcases List.mem_cons.mp hr with rfl | hr'
    · exact le_trans hz.1 hzmax
    · rcases List.mem_cons.mp hr' with rfl | hr''
      · exact le_trans hz.2 hzmax
      · exact ih _ r (List.mem_cons_of_mem _ hr'')

/-- The max loop keeps the current best on ties, so its result is the first
element of the scanned list attaining the maximal value. -/
lemma maxByLoop_first (xs : Batch) (x : String × ℚ) :
    List.find? (fun r => r.2 == (maxByLoop x xs).2) (x :: xs) = some (maxByLoop x xs) := by
  induction xs generalizing x with
  | nil => simp [maxByLoop, List.find?]
  | cons y ys ih =>
    rw [maxByLoop]
    by_cases hxy : x.2 < y.2
    · rw [if_pos hxy]
      have hyM : y.2 ≤ (maxByLoop y ys).2 := maxByLoop_le ys y y (List.mem_cons_self _ _)
      have hxne : (x.2 == (maxByLoop y ys).2) = false := by
        simpa using ne_of_lt (lt_of_lt_of_le hxy hyM)
      rw [List.find?_cons, hxne]
      exact ih y
    · rw [if_neg hxy]
      have hM := ih x
      by_cases hx : (x.2 == (maxByLoop x ys).2) = true
      · have hhead : some x = some (maxByLoop x ys) := by
          rw [← hM, List.find?_cons, hx]
        rw [List.find?_cons, hx]
        exact hhead
      · have hx' : (x.2 == (maxByLoop x ys).2) = false := by
          simpa using hx
        have hxle : x.2 ≤ (maxByLoop x ys).2 := maxByLoop_le ys x x (List.mem_cons_self _ _)
        have hxlt : x.2 < (maxByLoop x ys).2 := lt_of_le_of_ne hxle (by simpa using hx')
        have hyne : (y.2 == (maxByLoop x ys).2) = false := by
          simpa using ne_of_lt (lt_of_le_of_lt (not_lt.mp hxy) hxlt)
        have htail : List.find? (fun r => r.2 == (maxByLoop x ys).2) ys
            = some (maxByLoop x ys) := by
          rw [List.find?_cons, hx'] at hM
          exact hM
        rw [List.find?_cons, hx', List.find?_cons, hyne]
        exact htail

/-- The min loop returns one of the elements it scanned. -/
lemma minByLoop_mem (xs : Batch) (x : String × ℚ) : minByLoop x xs ∈ x :: xs := by
  induction xs generalizing x with
  | nil => simp [minByLoop]
  | cons y ys ih =>
    rw [minByLoop]
    rcases List.mem_cons.mp (ih (if y.2 < x.2 then y else x)) with h | h
    · rw [h]
      split_ifs <;> simp
    · simp [List.mem_cons_of_mem, h]

/-- The min loop's result is below every element it scanned. -/
lemma minByLoop_ge (xs : Batch) (x : String × ℚ) :
    ∀ r ∈ x :: xs, (minByLoop x xs).2 ≤ r.2 := by
  induction xs generalizing x with
  | nil =>
    intro r hr
    rw [List.mem_singleton] at hr
    simp [minByLoop, hr]
  | cons y ys ih =>
    intro r hr
    rw [minByLoop]
    have hz : (if y.2 < x.2 then y else x).2 ≤ x.2 ∧ (if y.2 < x.2 then y else x).2 ≤ y.2 := by
      split_ifs with hyx
      · exact ⟨le_of_lt hyx, le_refl _⟩
      · exact ⟨le_refl _, not_lt.mp hyx⟩
    have hzmin : (minByLoop (if y.2 < x.2 then y else x) ys).2
        ≤ (if y.2 < x.2 then y else x).2 :=
      ih _ _ (List.mem_cons_self _ _)
    rcases List.mem_cons.mp hr with rfl | hr'
    · exact le_trans hzmin hz.1
    · rcases List.mem_cons.mp hr' with rfl | hr''
      · exact le_trans hzmin hz.2
      · exact ih _ r (List.mem_cons_of_mem _ hr'')

/-- The min loop keeps the current best on ties, so its result is the first
element of the scanned list attaining the minimal value. -/
lemma minByLoop_first (xs : Batch) (x : String × ℚ) :
    List.find? (fun r => r.2 == (minByLoop x xs).2) (x :: xs) = some (minByLoop x xs) := by
  induction xs generalizing x with
  | nil => simp [minByLoop, List.find?]
  | cons y ys ih =>
    rw [minByLoop]
    by_cases hyx : y.2 < x.2
    · rw [if_pos hyx]
      have hyM : (minByLoop y ys).2 ≤ y.2 := minByLoop_ge ys y y (List.mem_cons_self _ _)
      have hxne : (x.2 == (minByLoop y ys).2) = false := by
        simpa using (ne_of_lt (lt_of_le_of_lt hyM hyx)).symm
      rw [List.find?_cons, hxne]
      exact ih y
    · rw [if_neg hyx]
      have hM := ih x
      by_cases hx : (x.2 == (minByLoop x ys).2) = true
      · have hhead : some x = some (minByLoop x ys) := by
          rw [← hM, List.find?_cons, hx]
        rw [List.find?_cons, hx]
        exact hhead
      · have hx' : (x.2 == (minByLoop x ys).2) = false := by
          simpa using hx
        have hxge : (minByLoop x ys).2 ≤ x.2 := minByLoop_ge ys x x (List.mem_cons_self _ _)
        have hxgt : (minByLoop x ys).2 < x.2 :=
          lt_of_le_of_ne hxge (fun hcon => by simp [hcon] at hx')
        have hyne : (y.2 == (minByLoop x ys).2) = false := by
          simpa using (ne_of_lt (lt_of_lt_of_le hxgt (not_lt.mp hyx))).symm
        have htail : List.find? (fun r => r.2 == (minByLoop x ys).2) ys
            = some (minByLoop x ys) := by
          rw [List.find?_cons, hx'] at hM
          exact hM
        rw [List.find?_cons, hx', List.find?_cons, hyne]
        exact htail

/-- Claim C7: on a non-empty batch, find_max_score and find_min_score return
an extreme (name, value) pair, and among all pairs attaining the extreme
value the returned pair is the first one in the batch's iteration order. -/
theorem extremes_first_occurrence (marks : Batch) (h : marks ≠ []) :
    ∃ p q, find_max_score marks = some p ∧ find_min_score marks = some q ∧
      (∀ r ∈ marks, r.2 ≤ p.2) ∧ (∀ r ∈ marks, q.2 ≤ r.2) ∧
      marks.find? (fun r => r.2 == p.2) = some p ∧
      marks.find? (fun r => r.2 == q.2) = some q := by
  match marks with
  | [] => exact absurd rfl h
  | x :: xs =>
    exact ⟨maxByLoop x xs, minByLoop x xs, rfl, rfl, maxByLoop_le xs x, minByLoop_ge xs x,
      maxByLoop_first xs x, minByLoop_first xs x⟩

/-- Witness for claim C7 at the sample batch. -/
theorem extremes_first_occurrence_witness :
    ∃ p q, find_max_score sample_data = some p ∧ find_min_score sample_data = some q ∧
      (∀ r ∈ sample_data, r.2 ≤ p.2) ∧ (∀ r ∈ sample_data, q.2 ≤ r.2) ∧
      sample_data.find? (fun r => r.2 == p.2) = some p ∧
      sample_data.find? (fun r => r.2 == q.2) = some q :=
  extremes_first_occurrence sample_data (by decide)

end GradeBook

namespace GradeBook

/-- The median of a non-empty list is the midpoint of two of its members
(the same member twice when the count is odd). -/
lemma medianOfSorted_mem (s : List ℚ) (h : s ≠ []) :
    ∃ a b, a ∈ s ∧ b ∈ s ∧ medianOfSorted s = some ((a + b) / 2) := by
  have hlen : 0 < s.length := List.length_pos.mpr h
  by_cases hodd : s.length % 2 = 1
  · have hidx : s.length / 2 < s.length := Nat.div_lt_self hlen (by norm_num)
    refine ⟨s[s.length / 2], s[s.length / 2], ?_, ?_, ?_⟩
    · exact List.getElem_mem hidx
    · exact List.getElem_mem hidx
    · rw [medianOfSorted, if_pos hodd, List.getElem?_eq_getElem hidx]
      congr 1
      ring
  · have hi2 : s.length / 2 < s.length := Nat.div_lt_self hlen (by norm_num)
    have hi1 : s.length / 2 - 1 < s.length := by omega
    refine ⟨s[s.length / 2 - 1], s[s.length / 2], ?_, ?_, ?_⟩
    · exact List.getElem_mem hi1
    · exact List.getElem_mem hi2
    · rw [medianOfSorted, if_neg hodd, List.getElem?_eq_getElem hi1,
        List.getElem?_eq_getElem hi2]

/-- Claim C3: on a non-empty batch, min ≤ median ≤ max and min ≤ mean ≤ max,
where mean is the arithmetic mean, median uses the midpoint-of-two-middle-
values convention, and min/max are the extreme values found by the scan. -/
theorem aggregates_between_min_max (marks : Batch) (h : marks ≠ []) :
    ∃ mx mn med, find_max_score marks = some mx ∧ find_min_score marks = some mn ∧
      calculate_median marks = some med ∧
      mn.2 ≤ med ∧ med ≤ mx.2 ∧
      mn.2 ≤ calculate_average marks ∧ calculate_average marks ≤ mx.2 := by
  match marks with
  | [] => exact absurd rfl h
  | x :: xs =>
    have hub := maxByLoop_le xs x
    have hlb := minByLoop_ge xs x
    have hvub : ∀ v ∈ List.map Prod.snd (x :: xs), v ≤ (maxByLoop x xs).2 := by
      intro v hv
      rcases List.mem_map.mp hv with ⟨r, hr, rfl⟩
      exact hub r hr
    have hvlb : ∀ v ∈ List.map Prod.snd (x :: xs), (minByLoop x xs).2 ≤ v := by
      intro v hv
      rcases List.mem_map.mp hv with ⟨r, hr, rfl⟩
      exact hlb r hr
    have hperm := List.perm_insertionSort (fun a b : ℚ => a ≤ b) (List.map Prod.snd (x :: xs))
    have hsne : List.insertionSort (fun a b : ℚ => a ≤ b) (List.map Prod.snd (x :: xs)) ≠ [] := by
      intro h0
      have hlen := hperm.length_eq
      rw [h0] at hlen
      simp at hlen
    obtain ⟨a, b, ha, hb, hmed⟩ := medianOfSorted_mem _ hsne
    have ha' : a ∈ List.map Prod.snd (x :: xs) := hperm.mem_iff.mp ha
    have hb' : b ∈ List.map Prod.snd (x :: xs) := hperm.mem_iff.mp hb
    have hmed' : calculate_median (x :: xs) = some ((a + b) / 2) := hmed
    have hsum_ub := List.sum_le_card_nsmul (List.map Prod.snd (x :: xs)) (maxByLoop x xs).2 hvub
    have hsum_lb := List.card_nsmul_le_sum (List.map Prod.snd (x :: xs)) (minByLoop x xs).2 hvlb
    rw [nsmul_eq_mul] at hsum_ub hsum_lb
    have hlenq : (0 : ℚ) < ((x :: xs : Batch).length : ℚ) := by
      exact_mod_cast List.length_pos.mpr (List.cons_ne_nil x xs)
    have hmean_ub : calculate_average (x :: xs) ≤ (maxByLoop x xs).2 := by
      rw [calculate_average, div_le_iff₀ hlenq]
      calc (List.map Prod.snd (x :: xs)).sum
          ≤ ((List.map Prod.snd (x :: xs)).length : ℚ) * (maxByLoop x xs).2 := hsum_ub
        _ = (maxByLoop x xs).2 * ((x :: xs : Batch).length : ℚ) := by
            rw [List.length_map]
            ring
    have hmean_lb : (minByLoop x xs).2 ≤ calculate_average (x :: xs) := by
      rw [calculate_average, le_div_iff₀ hlenq]
      calc (minByLoop x xs).2 * ((x :: xs : Batch).length : ℚ)
          = ((List.map Prod.snd (x :: xs)).length : ℚ) * (minByLoop x xs).2 := by
            rw [List.length_map]
            ring
        _ ≤ (List.map Prod.snd (x :: xs)).sum := hsum_lb
    refine ⟨maxByLoop x xs, minByLoop x xs, (a + b) / 2, rfl, rfl, hmed', ?_, ?_,
      hmean_lb, hmean_ub⟩
    · have h1 := hvlb a ha'
      have h2 := hvlb b hb'
      linarith
    · have h1 := hvub a ha'
      have h2 := hvub b hb'
      linarith

/-- Witness for claim C3 at the sample batch. -/
theorem aggregates_between_min_max_witness :
    ∃ mx mn med, find_max_score sample_data = some mx ∧
      find_min_score sample_data = some mn ∧
      calculate_median sample_data = some med ∧
      mn.2 ≤ med ∧ med ≤ mx.2 ∧
      mn.2 ≤ calculate_average sample_data ∧ calculate_average sample_data ≤ mx.2 :=
  aggregates_between_min_max sample_data (by decide)

end GradeBook
